import Mathlib

/-!
# Verification of the Contents-index aggregation core

Shallow embedding of `src/package_statistics.py`, function
`parse_contents_file` (lines 53-83).  The Python function reads a Contents
index line by line, splits each line on whitespace, and for every line with
at least two fields splits the second field on commas and increments a
`collections.Counter` once per comma token; finally it returns
`Counter.most_common(10)`.

Modelling choices:
* Python strings are modelled as `List Char` (`PyStr`); `str.strip`,
  `str.split()` (whitespace, empty fields dropped) and `str.split(',')`
  (empty chunks kept) are modelled by structural recursion so that every
  definition evaluates inside the kernel.
* `collections.Counter` is an insertion-ordered finite map, modelled as an
  association list: `c[k] += 1` bumps the existing entry in place, or
  appends a fresh entry with count 1 at the end (CPython dicts preserve
  insertion order, and `Counter.__missing__` returns 0 without inserting).
* `Counter.most_common(10)` is `heapq.nlargest(10, items, key=count)`,
  which CPython implements as a stable descending sort by count (equal
  counts keep the iteration order of the dict, i.e. first-insertion order)
  truncated to 10 entries; it is modelled as a stable insertion sort by
  count descending followed by `take 10`.
-/

namespace PackageStatistics

/-- Python strings, modelled as lists of characters. -/
abbrev PyStr := List Char

/-- Model of Python `str.strip()` restricted to whitespace: drop leading and
trailing whitespace characters. -/
def pyStrip (s : PyStr) : PyStr :=
  ((s.dropWhile Char.isWhitespace).reverse.dropWhile Char.isWhitespace).reverse

/-- Model of Python `str.split` with a separator predicate on single
characters: split at every separator character, keeping empty chunks
(so the chunk count is always one more than the separator count, as with
Python `"pkgA,".split(',') == ["pkgA", ""]`). -/
def pySplitOn (p : Char → Bool) : PyStr → List PyStr
  | [] => [[]]
  | c :: rest =>
    if p c then [] :: pySplitOn p rest
    else
      match pySplitOn p rest with
      | [] => [[c]]
      | t :: ts => (c :: t) :: ts

/-- Model of Python `line.strip().split()` (line 73 of the source): split on
runs of whitespace; no empty fields survive, matching no-argument
`str.split`. -/
def pyFields (line : PyStr) : List PyStr :=
  (pySplitOn Char.isWhitespace (pyStrip line)).filter (fun t => !t.isEmpty)

/-- Model of `collections.Counter` over package names: an association list
in insertion order. -/
abbrev Counter := List (PyStr × Nat)

/-- Model of `package_file_count[package] += 1` (line 78): bump the entry in
place if the key is present, else append a fresh entry with count 1 at the
end (dict insertion order). -/
def incr : Counter → PyStr → Counter
  | [], k => [(k, 1)]
  | (k', n) :: rest, k =>
    if k' = k then (k', n + 1) :: rest else (k', n) :: incr rest k

/-- The count the counter records for a key (0 when absent). -/
def lookupCount : Counter → PyStr → Nat
  | [], _ => 0
  | (k', n) :: rest, k => if k' = k then n else lookupCount rest k

/-- The comma tokens one line contributes (lines 73-75): if the line has at
least two whitespace fields, the second field split on commas; otherwise
nothing. -/
def tokensOfLine (line : PyStr) : List PyStr :=
  match pyFields line with
  | _ :: second :: _ => pySplitOn (fun c => c = ',') second
  | _ => []

/-- Processing of one line of the Contents file (lines 73-78): increment the
counter once per comma token of the second field. -/
def countLine (c : Counter) (line : PyStr) : Counter :=
  (tokensOfLine line).foldl incr c

/-- All comma tokens of the stream, in stream order. -/
def tokens (lines : List PyStr) : List PyStr :=
  (lines.map tokensOfLine).flatten

/-- Stable insertion into a count-descending list: skip entries with a
strictly larger count, insert before the first entry whose count is not
larger. -/
def insertByCount (x : PyStr × Nat) : List (PyStr × Nat) → List (PyStr × Nat)
  | [] => [x]
  | y :: ys => if x.2 < y.2 then y :: insertByCount x ys else x :: y :: ys

/-- Stable sort by count descending: entries with equal counts keep their
relative order. -/
def sortByCountDesc : List (PyStr × Nat) → List (PyStr × Nat)
  | [] => []
  | x :: xs => insertByCount x (sortByCountDesc xs)

/-- Model of `Counter.most_common(n)` (line 81): the `n` entries with the
largest counts, count descending, ties in insertion order
(`heapq.nlargest` is a stable descending sort truncated to `n`). -/
def mostCommon (n : Nat) (c : Counter) : List (PyStr × Nat) :=
  (sortByCountDesc c).take n

/-- Model of `parse_contents_file` (lines 53-83), with the file contents
abstracted to the list of its lines: fold the per-line counting over the
stream starting from the empty counter, then return the top 10. -/
def parse_contents_file (lines : List PyStr) : List (PyStr × Nat) :=
  mostCommon 10 (lines.foldl countLine [])

/-- Position of the first occurrence of a token in the token stream
(the length of the stream when absent). -/
def firstIdx (ts : List PyStr) (k : PyStr) : Nat :=
  ts.findIdx (fun t => t == k)

theorem tokens_cons (l : PyStr) (ls : List PyStr) :
    tokens (l :: ls) = tokensOfLine l ++ tokens ls := by
  simp [tokens]

theorem foldl_countLine_eq (lines : List PyStr) :
    ∀ c : Counter, lines.foldl countLine c = (tokens lines).foldl incr c := by
  induction lines with
  | nil => intro c; rfl
  | cons l ls ih =>
    intro c
    simp [tokens_cons, List.foldl_append, countLine, ih]

theorem lookupCount_incr (c : Counter) (t k : PyStr) :
    lookupCount (incr c t) k = lookupCount c k + (if k = t then 1 else 0) := by
  induction c with
  | nil =>
    rcases eq_or_ne k t with h | h
    · subst h; simp [incr, lookupCount]
    · simp [incr, lookupCount, h, Ne.symm h]
  | cons e rest ih =>
    obtain ⟨k', n⟩ := e
    by_cases h1 : k' = t
    · subst h1
      by_cases h2 : k' = k
      · subst h2; simp [incr, lookupCount]
      · simp [incr, lookupCount, h2, Ne.symm h2]
    · by_cases h2 : k' = k
      · subst h2
        simp [incr, lookupCount, h1, Ne.symm h1]
      · simp [incr, lookupCount, h1, h2, ih]

theorem lookupCount_foldl (ts : List PyStr) :
    ∀ (c : Counter) (k : PyStr),
      lookupCount (ts.foldl incr c) k = lookupCount c k + ts.count k := by
  induction ts with
  | nil => intro c k; simp
  | cons t ts ih =>
    intro c k
    rw [List.foldl_cons, ih, lookupCount_incr, List.count_cons]
    by_cases h : k = t
    · subst h; simp; omega
    · simp [h, beq_iff_eq, Ne.symm h]

theorem counter_count (lines : List PyStr) (p : PyStr) :
    lookupCount (lines.foldl countLine []) p = (tokens lines).count p := by
  rw [foldl_countLine_eq]
  simpa [lookupCount] using lookupCount_foldl (tokens lines) [] p

/-- C2: the final count recorded for a package equals the number of its
occurrences as a comma token of the second whitespace field, summed over
all lines with at least two fields (repeats within one line each count). -/
theorem C2_count_is_token_occurrences (lines : List PyStr) (p : PyStr) :
    lookupCount (lines.foldl countLine []) p = (tokens lines).count p :=
  counter_count lines p

/-- C7: aggregating an empty line stream returns an empty ranked sequence. -/
theorem C7_empty_stream : parse_contents_file [] = [] := rfl

/-- C9: aggregation is deterministic — two independent passes over the same
line stream produce identical ranked sequences. -/
theorem C9_deterministic (lines : List PyStr) (out1 out2 : List (PyStr × Nat))
    (h1 : out1 = parse_contents_file lines) (h2 : out2 = parse_contents_file lines) :
    out1 = out2 :=
  h1.trans h2.symm

theorem C9_deterministic_witness :
    parse_contents_file ["bin/a pkgA".toList] = parse_contents_file ["bin/a pkgA".toList] :=
  C9_deterministic ["bin/a pkgA".toList] _ _ rfl rfl

theorem tokensOfLine_eq_nil (line : PyStr) (h : (pyFields line).length < 2) :
    tokensOfLine line = [] := by
  cases hf : pyFields line with
  | nil => simp [tokensOfLine, hf]
  | cons a rest =>
    cases rest with
    | nil => simp [tokensOfLine, hf]
    | cons b rest2 => rw [hf] at h; simp at h; omega

theorem tokens_filter (lines : List PyStr) :
    tokens (lines.filter (fun l => 2 ≤ (pyFields l).length)) = tokens lines := by
  induction lines with
  | nil => rfl
  | cons l ls ih =>
    by_cases h : 2 ≤ (pyFields l).length
    · simp [List.filter_cons, h, tokens_cons, ih]
    · simp [List.filter_cons, h, tokens_cons, ih, tokensOfLine_eq_nil l (by omega)]

/-- C5: lines with fewer than two whitespace fields contribute nothing —
removing every such line leaves the ranked output unchanged. -/
theorem C5_short_lines_contribute_nothing (lines : List PyStr) :
    parse_contents_file (lines.filter (fun l => 2 ≤ (pyFields l).length))
      = parse_contents_file lines := by
  unfold parse_contents_file mostCommon
  rw [foldl_countLine_eq, foldl_countLine_eq, tokens_filter]

theorem keys_incr (c : Counter) (t : PyStr) :
    (incr c t).map Prod.fst =
      if t ∈ c.map Prod.fst then c.map Prod.fst else c.map Prod.fst ++ [t] := by
  induction c with
  | nil => simp [incr]
  | cons e rest ih =>
    obtain ⟨k', n⟩ := e
    by_cases h : k' = t
    · subst h; simp [incr]
    · by_cases h2 : t ∈ rest.map Prod.fst <;>
        simp [incr, h, Ne.symm h, ih, h2]

theorem keys_sublist_incr (c : Counter) (t : PyStr) :
    List.Sublist (c.map Prod.fst) ((incr c t).map Prod.fst) := by
  rw [keys_incr]
  by_cases h : t ∈ c.map Prod.fst
  · simp [h]
  · simp only [if_neg h]
    exact List.sublist_append_left _ _

theorem keys_sublist_foldl (ts : List PyStr) :
    ∀ c : Counter, List.Sublist (c.map Prod.fst) ((ts.foldl incr c).map Prod.fst) := by
  induction ts with
  | nil => intro c; exact List.Sublist.refl _
  | cons t ts ih =>
    intro c
    exact (keys_sublist_incr c t).trans (ih (incr c t))

theorem mem_keys_incr (c : Counter) (t k : PyStr) :
    k ∈ (incr c t).map Prod.fst ↔ k ∈ c.map Prod.fst ∨ k = t := by
  rw [keys_incr]
  by_cases h : t ∈ c.map Prod.fst
  · simp only [if_pos h]
    constructor
    · exact Or.inl
    · rintro (hk | rfl)
      · exact hk
      · exact h
  · simp [h]

theorem mem_keys_foldl (ts : List PyStr) :
    ∀ (c : Counter) (k : PyStr),
      k ∈ (ts.foldl incr c).map Prod.fst ↔ k ∈ c.map Prod.fst ∨ k ∈ ts := by
  induction ts with
  | nil => intro c k; simp
  | cons t ts ih =>
    intro c k
    rw [List.foldl_cons, ih, mem_keys_incr, List.mem_cons]
    tauto

theorem nodup_keys_incr (c : Counter) (t : PyStr)
    (h : (c.map Prod.fst).Nodup) : ((incr c t).map Prod.fst).Nodup := by
  rw [keys_incr]
  by_cases hm : t ∈ c.map Prod.fst
  · simpa [hm] using h
  · simp only [if_neg hm]
    simp [List.nodup_append, h, hm]

theorem nodup_keys_foldl (ts : List PyStr) :
    ∀ c : Counter, (c.map Prod.fst).Nodup → ((ts.foldl incr c).map Prod.fst).Nodup := by
  induction ts with
  | nil => intro c h; exact h
  | cons t ts ih => intro c h; exact ih _ (nodup_keys_incr c t h)

theorem mem_lookup_eq (c : Counter) (k : PyStr) (v : Nat)
    (hm : (k, v) ∈ c) (hnd : (c.map Prod.fst).Nodup) : v = lookupCount c k := by
  induction c with
  | nil => simp at hm
  | cons e rest ih =>
    obtain ⟨k', n⟩ := e
    rw [List.map_cons, List.nodup_cons] at hnd
    rcases List.mem_cons.mp hm with he | hm'
    · rw [Prod.mk.injEq] at he
      obtain ⟨hk, hv⟩ := he
      subst hk; subst hv
      simp [lookupCount]
    · have hk' : k' ≠ k := by
        intro he
        subst he
        exact hnd.1 (List.mem_map.mpr ⟨(k', v), hm', rfl⟩)
      simp only [lookupCount, if_neg hk']
      exact ih hm' hnd.2

theorem entry_unique (l : List (PyStr × Nat)) (e1 e2 : PyStr × Nat)
    (hnd : (l.map Prod.fst).Nodup) (h1 : e1 ∈ l) (h2 : e2 ∈ l) (hk : e1.1 = e2.1) :
    e1 = e2 := by
  induction l with
  | nil => simp at h1
  | cons x rest ih =>
    rw [List.map_cons, List.nodup_cons] at hnd
    rcases List.mem_cons.mp h1 with rfl | h1r
    · rcases List.mem_cons.mp h2 with rfl | h2r
      · rfl
      · exact absurd (List.mem_map.mpr ⟨e2, h2r, hk.symm⟩) hnd.1
    · rcases List.mem_cons.mp h2 with rfl | h2r
      · exact absurd (List.mem_map.mpr ⟨e1, h1r, hk⟩) hnd.1
      · exact ih hnd.2 h1r h2r

theorem insertByCount_perm (x : PyStr × Nat) (l : List (PyStr × Nat)) :
    List.Perm (insertByCount x l) (x :: l) := by
  induction l with
  | nil => exact List.Perm.refl _
  | cons y ys ih =>
    by_cases h : x.2 < y.2
    · simp only [insertByCount, if_pos h]
      exact (ih.cons y).trans (List.Perm.swap x y ys)
    · simp only [insertByCount, if_neg h]
      exact List.Perm.refl _

theorem sortByCountDesc_perm (c : List (PyStr × Nat)) :
    List.Perm (sortByCountDesc c) c := by
  induction c with
  | nil => exact List.Perm.refl _
  | cons x xs ih => exact (insertByCount_perm x _).trans (ih.cons x)

theorem pairwise_insertByCount (x : PyStr × Nat) (l : List (PyStr × Nat))
    (h : l.Pairwise (fun a b => b.2 ≤ a.2)) :
    (insertByCount x l).Pairwise (fun a b => b.2 ≤ a.2) := by
  induction l with
  | nil => simp [insertByCount]
  | cons y ys ih =>
    rw [List.pairwise_cons] at h
    by_cases hc : x.2 < y.2
    · simp only [insertByCount, if_pos hc]
      rw [List.pairwise_cons]
      constructor
      · intro z hz
        rcases List.mem_cons.mp (((insertByCount_perm x ys).mem_iff).mp hz) with rfl | hzys
        · exact Nat.le_of_lt hc
        · exact h.1 z hzys
      · exact ih h.2
    · simp only [insertByCount, if_neg hc]
      rw [List.pairwise_cons]
      constructor
      · intro z hz
        rcases List.mem_cons.mp hz with rfl | hzys
        · omega
        · exact Nat.le_trans (h.1 z hzys) (by omega)
      · exact List.pairwise_cons.mpr h

theorem sortByCountDesc_pairwise (c : List (PyStr × Nat)) :
    (sortByCountDesc c).Pairwise (fun a b => b.2 ≤ a.2) := by
  induction c with
  | nil => simp [sortByCountDesc]
  | cons x xs ih => exact pairwise_insertByCount x _ ih

theorem sublist_insertByCount (x : PyStr × Nat) (l : List (PyStr × Nat)) :
    List.Sublist l (insertByCount x l) := by
  induction l with
  | nil => simp [insertByCount]
  | cons y ys ih =>
    by_cases h : x.2 < y.2
    · simp only [insertByCount, if_pos h]
      exact ih.cons₂ y
    · simp only [insertByCount, if_neg h]
      exact (List.Sublist.refl _).cons x

theorem insertByCount_before (x e : PyStr × Nat) (l : List (PyStr × Nat))
    (hp : l.Pairwise (fun a b => b.2 ≤ a.2)) (he : e ∈ l) (hle : e.2 ≤ x.2) :
    List.Sublist [x, e] (insertByCount x l) := by
  induction l with
  | nil => simp at he
  | cons y ys ih =>
    rw [List.pairwise_cons] at hp
    by_cases h : x.2 < y.2
    · simp only [insertByCount, if_pos h]
      rcases List.mem_cons.mp he with rfl | hys
      · omega
      · exact (ih hp.2 hys).cons y
    · simp only [insertByCount, if_neg h]
      exact (List.singleton_sublist.mpr he).cons₂ x

theorem sortByCountDesc_stable (c : List (PyStr × Nat)) (e1 e2 : PyStr × Nat)
    (hs : List.Sublist [e1, e2] c) (hle : e2.2 ≤ e1.2) :
    List.Sublist [e1, e2] (sortByCountDesc c) := by
  induction c with
  | nil => simp at hs
  | cons x xs ih =>
    rcases List.sublist_cons_iff.mp hs with hs' | ⟨l', he, hs'⟩
    · exact (ih hs').trans (sublist_insertByCount x _)
    · rw [List.cons.injEq] at he
      obtain ⟨rfl, rfl⟩ := he
      have he2 : e2 ∈ sortByCountDesc xs :=
        ((sortByCountDesc_perm xs).mem_iff).mpr (List.singleton_sublist.mp hs')
      exact insertByCount_before e1 e2 _ (sortByCountDesc_pairwise xs) he2 hle

theorem sublist_pair_take (n : Nat) (l : List (PyStr × Nat)) (e1 e2 : PyStr × Nat)
    (hnd : l.Nodup) (hs : List.Sublist [e1, e2] l) (hmem : e2 ∈ l.take n) :
    List.Sublist [e1, e2] (l.take n) := by
  induction l generalizing n with
  | nil => simp at hmem
  | cons x xs ih =>
    cases n with
    | zero => simp at hmem
    | succ m =>
      rw [List.take_succ_cons] at hmem ⊢
      rw [List.nodup_cons] at hnd
      rcases List.sublist_cons_iff.mp hs with hs' | ⟨l', he, hs'⟩
      · have he2xs : e2 ∈ xs := hs'.mem (by simp)
        have he2 : e2 ∈ xs.take m := by
          rcases List.mem_cons.mp hmem with rfl | h
          · exact absurd he2xs hnd.1
          · exact h
        exact (ih m hnd.2 hs' he2).cons x
      · rw [List.cons.injEq] at he
        obtain ⟨rfl, rfl⟩ := he
        have he2xs : e2 ∈ xs := List.singleton_sublist.mp hs'
        have he2 : e2 ∈ xs.take m := by
          rcases List.mem_cons.mp hmem with rfl | h
          · exact absurd he2xs hnd.1
          · exact h
        exact (List.singleton_sublist.mpr he2).cons₂ e1

theorem keys_order_mem (ts : List PyStr) :
    ∀ (c : Counter) (k1 k2 : PyStr),
      k1 ∈ c.map Prod.fst → k2 ∉ c.map Prod.fst → k2 ∈ ts →
      List.Sublist [k1, k2] ((ts.foldl incr c).map Prod.fst) := by
  induction ts with
  | nil =>
    intro c k1 k2 _ _ h
    simp at h
  | cons t ts ih =>
    intro c k1 k2 h1 h2 hmem
    rw [List.foldl_cons]
    by_cases ht : t = k2
    · subst ht
      have hk : (incr c t).map Prod.fst = c.map Prod.fst ++ [t] := by
        rw [keys_incr, if_neg h2]
      refine List.Sublist.trans ?_ (keys_sublist_foldl ts (incr c t))
      rw [hk]
      simpa using (List.singleton_sublist.mpr h1).append (List.Sublist.refl [t])
    · apply ih
      · rw [mem_keys_incr]
        exact Or.inl h1
      · rw [mem_keys_incr]
        rintro (h | rfl)
        · exact h2 h
        · exact ht rfl
      · rcases List.mem_cons.mp hmem with h | h
        · exact absurd h.symm ht
        · exact h

theorem keys_order_first (ts : List PyStr) :
    ∀ (c : Counter) (k1 k2 : PyStr),
      k1 ∉ c.map Prod.fst → k2 ∉ c.map Prod.fst →
      k1 ∈ ts → k2 ∈ ts → firstIdx ts k1 < firstIdx ts k2 →
      List.Sublist [k1, k2] ((ts.foldl incr c).map Prod.fst) := by
  induction ts with
  | nil =>
    intro c k1 k2 _ _ h
    simp at h
  | cons t ts ih =>
    intro c k1 k2 hn1 hn2 hm1 hm2 hf
    have ht2 : t ≠ k2 := by
      intro he
      subst he
      unfold firstIdx at hf
      rw [List.findIdx_cons, List.findIdx_cons] at hf
      simp at hf
    rw [List.foldl_cons]
    by_cases ht1 : t = k1
    · subst ht1
      apply keys_order_mem
      · rw [mem_keys_incr]
        exact Or.inr rfl
      · rw [mem_keys_incr]
        rintro (h | rfl)
        · exact hn2 h
        · exact ht2 rfl
      · rcases List.mem_cons.mp hm2 with h | h
        · exact absurd h.symm ht2
        · exact h
    · have hf' : firstIdx ts k1 < firstIdx ts k2 := by
        unfold firstIdx at hf ⊢
        rw [List.findIdx_cons, List.findIdx_cons] at hf
        have e1 : (t == k1) = false := by
          simp [beq_iff_eq]
          exact ht1
        have e2 : (t == k2) = false := by
          simp [beq_iff_eq]
          exact ht2
        rw [e1, e2] at hf
        simpa using hf
      apply ih
      · rw [mem_keys_incr]
        rintro (h | rfl)
        · exact hn1 h
        · exact ht1 rfl
      · rw [mem_keys_incr]
        rintro (h | rfl)
        · exact hn2 h
        · exact ht2 rfl
      · rcases List.mem_cons.mp hm1 with h | h
        · exact absurd h.symm ht1
        · exact h
      · rcases List.mem_cons.mp hm2 with h | h
        · exact absurd h.symm ht2
        · exact h
      · exact hf'

/-- C1: among packages with equal final counts, the ranked output orders
them by the position of their first appearance in the stream: if the first
token occurrence of `k1` precedes that of `k2`, their counts agree, and
`k2` made it into the top-10 output, then `k1` appears in the output and
strictly before `k2`. -/
theorem C1_ties_ranked_by_first_occurrence (lines : List PyStr) (k1 k2 : PyStr)
    (hmem : k1 ∈ tokens lines)
    (hcount : (tokens lines).count k1 = (tokens lines).count k2)
    (hfirst : firstIdx (tokens lines) k1 < firstIdx (tokens lines) k2)
    (hout : k2 ∈ (parse_contents_file lines).map Prod.fst) :
    List.Sublist [(k1, (tokens lines).count k1), (k2, (tokens lines).count k2)]
      (parse_contents_file lines) := by
  have hcfold : lines.foldl countLine [] = (tokens lines).foldl incr [] :=
    foldl_countLine_eq lines []
  have hparse : parse_contents_file lines
      = (sortByCountDesc (lines.foldl countLine [])).take 10 := rfl
  have hnd : ((lines.foldl countLine []).map Prod.fst).Nodup := by
    rw [hcfold]
    exact nodup_keys_foldl (tokens lines) [] (by simp)
  have hndsort : ((sortByCountDesc (lines.foldl countLine [])).map Prod.fst).Nodup :=
    (((sortByCountDesc_perm _).map Prod.fst).nodup_iff).mpr hnd
  have hk2keys : k2 ∈ (lines.foldl countLine []).map Prod.fst := by
    rw [hparse] at hout
    have h1 : k2 ∈ (sortByCountDesc (lines.foldl countLine [])).map Prod.fst :=
      ((List.take_sublist 10 _).map Prod.fst).mem hout
    exact ((sortByCountDesc_perm _).map Prod.fst).mem_iff.mp h1
  have hmem2 : k2 ∈ tokens lines := by
    rw [hcfold] at hk2keys
    rcases (mem_keys_foldl (tokens lines) [] k2).mp hk2keys with h | h
    · simp at h
    · exact h
  have hpair : List.Sublist [k1, k2] ((lines.foldl countLine []).map Prod.fst) := by
    rw [hcfold]
    exact keys_order_first (tokens lines) [] k1 k2 (by simp) (by simp) hmem hmem2 hfirst
  rcases List.sublist_map_iff.mp hpair with ⟨s, hsub, hmap⟩
  rcases s with _ | ⟨e1, s⟩
  · simp at hmap
  rcases s with _ | ⟨e2, s⟩
  · simp at hmap
  rcases s with _ | ⟨e3, s⟩
  swap
  · simp at hmap
  rw [List.map_cons, List.map_cons, List.map_nil, List.cons.injEq, List.cons.injEq] at hmap
  obtain ⟨hk1e, hk2e, -⟩ := hmap
  have he1c : e1 ∈ lines.foldl countLine [] := hsub.mem (by simp)
  have he2c : e2 ∈ lines.foldl countLine [] := hsub.mem (by simp)
  have hv1 : e1.2 = lookupCount (lines.foldl countLine []) k1 := by
    have := mem_lookup_eq _ e1.1 e1.2 (by simpa using he1c) hnd
    rw [hk1e]
    exact this
  have hv2 : e2.2 = lookupCount (lines.foldl countLine []) k2 := by
    have := mem_lookup_eq _ e2.1 e2.2 (by simpa using he2c) hnd
    rw [hk2e]
    exact this
  have he1 : e1 = (k1, (tokens lines).count k1) := by
    rw [Prod.ext_iff]
    exact ⟨hk1e.symm, by rw [hv1, counter_count]⟩
  have he2 : e2 = (k2, (tokens lines).count k2) := by
    rw [Prod.ext_iff]
    exact ⟨hk2e.symm, by rw [hv2, counter_count]⟩
  rw [he1, he2] at hsub
  have hstab : List.Sublist [(k1, (tokens lines).count k1), (k2, (tokens lines).count k2)]
      (sortByCountDesc (lines.foldl countLine [])) :=
    sortByCountDesc_stable _ _ _ hsub (by simpa using hcount.symm.le)
  rcases List.mem_map.mp hout with ⟨e, hetake, heq⟩
  rw [hparse] at hetake
  have hesort : e ∈ sortByCountDesc (lines.foldl countLine []) :=
    (List.take_sublist 10 _).mem hetake
  have he2sort : (k2, (tokens lines).count k2) ∈ sortByCountDesc (lines.foldl countLine []) :=
    hstab.mem (by simp)
  have hee : e = (k2, (tokens lines).count k2) :=
    entry_unique _ e _ hndsort hesort he2sort (by simpa using heq)
  rw [hparse]
  apply sublist_pair_take 10 _ _ _ (hndsort.of_map) hstab
  rw [← hee]
  exact hetake

theorem C1_ties_ranked_by_first_occurrence_witness :
    List.Sublist
      [("pkgA".toList, (tokens ["bin/a pkgA".toList, "bin/b pkgB".toList]).count ("pkgA".toList)),
       ("pkgB".toList, (tokens ["bin/a pkgA".toList, "bin/b pkgB".toList]).count ("pkgB".toList))]
      (parse_contents_file ["bin/a pkgA".toList, "bin/b pkgB".toList]) :=
  C1_ties_ranked_by_first_occurrence ["bin/a pkgA".toList, "bin/b pkgB".toList]
    ("pkgA".toList) ("pkgB".toList) (by decide) (by decide) (by decide) (by decide)

/-- C4: the counts in the ranked output are non-increasing from the first
entry to the last. -/
theorem C4_counts_nonincreasing (lines : List PyStr) :
    (parse_contents_file lines).Pairwise (fun a b => b.2 ≤ a.2) := by
  unfold parse_contents_file mostCommon
  exact (sortByCountDesc_pairwise _).sublist (List.take_sublist _ _)

/-- C3: the ranked output has length exactly `min 10 d` where `d` is the
number of distinct package identifiers seen in the stream. -/
theorem C3_length_min_ten_distinct (lines : List PyStr) :
    (parse_contents_file lines).length = min 10 (tokens lines).dedup.length := by
  unfold parse_contents_file mostCommon
  rw [List.length_take]
  congr 1
  rw [(sortByCountDesc_perm _).length_eq, ← List.length_map _ Prod.fst,
    ← List.toFinset_card_of_nodup, ← List.toFinset_card_of_nodup (List.nodup_dedup _)]
  · congr 1
    apply Finset.ext
    intro x
    rw [List.mem_toFinset, List.mem_toFinset, List.mem_dedup, foldl_countLine_eq,
      mem_keys_foldl]
    simp
  · rw [foldl_countLine_eq]
    exact nodup_keys_foldl (tokens lines) [] (by simp)

/-- Model of lines 70-78 with the `parts[1]` subscript treated as a
fallible operation: Python raises `IndexError` when the index is out of
range, which this embedding surfaces as an `Except.error`; every other
step of the loop body is total. -/
def countLineE (c : Counter) (line : PyStr) : Except String Counter :=
  let parts := pyFields line
  if 2 ≤ parts.length then
    match parts[1]? with
    | some second => Except.ok ((pySplitOn (fun ch => ch = ',') second).foldl incr c)
    | none => Except.error ("IndexError")
  else
    Except.ok c

/-- Fallible variant of `parse_contents_file`: propagates an error raised
by any line of the stream. -/
def parse_contents_fileE (lines : List PyStr) : Except String (List (PyStr × Nat)) :=
  (lines.foldlM countLineE []).map (mostCommon 10)

theorem countLineE_ok (c : Counter) (line : PyStr) :
    countLineE c line = Except.ok (countLine c line) := by
  cases hf : pyFields line with
  | nil => simp [countLineE, countLine, tokensOfLine, hf]
  | cons a rest =>
    cases rest with
    | nil => simp [countLineE, countLine, tokensOfLine, hf]
    | cons b rest2 =>
      have hlen : 2 ≤ (pyFields line).length := by
        rw [hf]
        simp
      simp [countLineE, countLine, tokensOfLine, hf, hlen]

theorem foldlM_countLineE (lines : List PyStr) :
    ∀ c : Counter, lines.foldlM countLineE c = Except.ok (lines.foldl countLine c) := by
  induction lines with
  | nil => intro c; rfl
  | cons l ls ih =>
    intro c
    rw [List.foldlM_cons, countLineE_ok]
    simpa using ih (countLine c l)

/-- C8: the aggregation raises no error on any line stream — even with the
fallible indexing modelled explicitly, every input produces `Except.ok` of
the ranked sequence; malformed lines are skipped, never signalled. -/
theorem C8_no_error (lines : List PyStr) :
    parse_contents_fileE lines = Except.ok (parse_contents_file lines) := by
  unfold parse_contents_fileE parse_contents_file
  rw [foldlM_countLineE]
  rfl

/-- C6: the literal three-line scenario ranks `pkgA` with count 2 first,
then `pkgB` and `pkgC` with count 1 in first-occurrence order, and
appending the single-field line `bin/d` changes nothing. -/
theorem C6_literal_scenario :
    parse_contents_file
        ["bin/a   pkgA".toList, "bin/b   pkgB,pkgC".toList, "bin/c   pkgA".toList]
      = [("pkgA".toList, 2), ("pkgB".toList, 1), ("pkgC".toList, 1)]
    ∧ parse_contents_file
        ["bin/a   pkgA".toList, "bin/b   pkgB,pkgC".toList, "bin/c   pkgA".toList,
         "bin/d".toList]
      = [("pkgA".toList, 2), ("pkgB".toList, 1), ("pkgC".toList, 1)] :=
  ⟨by decide, by decide⟩

/-- C10: an empty token produced by a trailing comma in the package list is
counted as a literal empty-string package identifier and appears in the
ranked output. -/
theorem C10_empty_token_counted :
    parse_contents_file ["bin/x pkgA,".toList]
      = [("pkgA".toList, 1), (([] : PyStr), 1)] := by
  decide

end PackageStatistics
